import Mathlib

/-!
Verification of the chore-master allocation engine (`src/App.tsx`, the
`weeks` useMemo and its helpers) against its natural-language specification.

The engine is embedded shallowly:
* chores, people and assignment tuples become structures;
* the per-week mutable `week` object becomes the explicit state `EState`;
* the wall-clock tie-break `uid(seed) = Math.sin(Date.now() + seed * 9.73)`
  is modelled by a parameter `tb : Nat → Int` giving, for each seed, the
  comparable key sampled at the (fixed) wall-clock instant of the call;
* JavaScript's stable `Array.prototype.sort` with a numeric comparator is
  embedded as the stable insertion sort `sortCmp`;
* the bounded `while (changed && guard++ < 100)` repair loop becomes the
  fuel-indexed recursion `repairLoop` with fuel 100.
-/

namespace ChoreMaster

/-- A person of the roster (`Person` in the source). -/
structure Person where
  name : String
  email : Option String
  deriving DecidableEq, Repr

/-- A catalog entry (`Chore` in the source).  The cadence is a string as in
the runtime data (values outside the five known keys hit the `default`
branch of `occurrencesInWeek`). -/
structure Chore where
  id : Nat
  name : String
  area : Option String
  weight : Int
  freq : String
  deriving DecidableEq, Repr

/-- One assignment tuple of a week's `assignments` list. -/
structure Assignment where
  person : String
  choreId : Nat
  choreName : String
  area : Option String
  weight : Int
  deriving DecidableEq, Repr

/-- One due occurrence (`Job` in the source's week loop). -/
structure Job where
  choreId : Nat
  choreName : String
  area : Option String
  weight : Int
  isQuarterly : Bool
  deriving DecidableEq, Repr

/-- The inputs of one allocation run: the three snapshots, the policy knobs
and the tie-break key `tb` (the wall-clock-derived `uid` values). -/
structure Inputs where
  people : List Person
  chores : List Chore
  cycleWeeks : Nat
  minChores : Nat
  maxChores : Nat
  avoidRepeats : Bool
  noDupPerWeek : Bool
  tb : Nat → Int

/-- The mutable state of one week's computation: the `week` object's
`assignments`, `loads`, `counts` together with the cross-week
`lastAssignee` map. -/
structure EState where
  assignments : List Assignment
  loads : String → Int
  counts : String → Nat
  last : Nat → Option String

/-- Output record for one week (`WeekAssignment` in the source). -/
structure WeekRec where
  week : Nat
  assignments : List Assignment
  loads : String → Int
  counts : String → Nat

/-- `occurrencesInWeek` from the source: how many occurrences of a chore
fall in week `widx`. -/
def occurrencesInWeek (c : Chore) (widx : Nat) : Nat :=
  if c.freq = "weekly" then 1
  else if c.freq = "twice_week" then 2
  else if c.freq = "every_2_weeks" then (if widx % 2 = 0 then 1 else 0)
  else if c.freq = "monthly" then
    (if widx % 4 = (c.id - 1) % 4 then 1 else 0)
  else if c.freq = "quarterly" then
    (if widx / 4 % 3 = 0 ∧ widx % 4 = 0 then 1 else 0)
  else 0

/-- The job built for a chore occurrence. -/
def mkJob (c : Chore) : Job :=
  ⟨c.id, c.name, c.area, c.weight, decide (c.freq = "quarterly")⟩

/-- The week's individual (non-quarterly) job list, in catalog order. -/
def iJobs (w : Nat) : List Chore → List Job
  | [] => []
  | c :: cs =>
      (if c.freq = "quarterly" then []
       else List.replicate (occurrencesInWeek c w) (mkJob c)) ++ iJobs w cs

/-- The week's quarterly job list, in catalog order. -/
def qJobs (w : Nat) : List Chore → List Job
  | [] => []
  | c :: cs =>
      (if c.freq = "quarterly" then List.replicate (occurrencesInWeek c w) (mkJob c)
       else []) ++ qJobs w cs

/-- Stable insertion of `x` into `l` by the numeric comparator `cmp`
(`x` goes before the first element it does not compare after). -/
def insCmp (cmp : α → α → Int) (x : α) : List α → List α
  | [] => [x]
  | y :: ys => if cmp x y ≤ 0 then x :: y :: ys else y :: insCmp cmp x ys

/-- Stable sort by a numeric comparator, the embedding of JavaScript's
stable `Array.prototype.sort`. -/
def sortCmp (cmp : α → α → Int) : List α → List α
  | [] => []
  | x :: xs => insCmp cmp x (sortCmp cmp xs)

/-- JavaScript truthiness of `lastAssignee[choreId]` (defined and a
non-empty string). -/
def truthy : Option String → Bool
  | none => false
  | some s => decide (s ≠ "")

/-- Record an accepted assignment: push the tuple, bump the person's load
and count, record the person as the chore's last assignee. -/
def pushAssign (st : EState) (person : String) (job : Job) : EState :=
  { assignments := st.assignments ++ [⟨person, job.choreId, job.choreName, job.area, job.weight⟩]
    loads := fun p => if p = person then st.loads p + job.weight else st.loads p
    counts := fun p => if p = person then st.counts p + 1 else st.counts p
    last := fun cid => if cid = job.choreId then some person else st.last cid }

/-- Stage 1 for one quarterly job: assign it to every person of the roster,
skipping a person who already holds that chore id when `noDupPerWeek`. -/
def fanout (I : Inputs) (q : Job) (st : EState) : EState :=
  (I.people.map Person.name).foldl
    (fun st person =>
      if I.noDupPerWeek &&
          st.assignments.any (fun a => decide (a.person = person) && decide (a.choreId = q.choreId)) then st
      else pushAssign st person q)
    st

/-- The job-sort comparator: weight descending, ties by the tie-break key
of the chore id (`uid(a.choreId) - uid(b.choreId)` in the source). -/
def jobCmp (tb : Nat → Int) (a b : Job) : Int :=
  if b.weight - a.weight ≠ 0 then b.weight - a.weight
  else tb a.choreId - tb b.choreId

/-- The candidate comparator: count ascending, then load ascending, then
the tie-break key of the name length. -/
def candCmp (tb : Nat → Int) (st : EState) (p1 p2 : String) : Int :=
  let c : Int := (st.counts p1 : Int) - (st.counts p2 : Int)
  if c ≠ 0 then c
  else
    let l : Int := st.loads p1 - st.loads p2
    if l ≠ 0 then l else tb p1.length - tb p2.length

/-- The candidates that have not hit the max bound
(`P.filter(p => week.counts[p] < maxChores)`). -/
def baseCands (I : Inputs) (st : EState) : List String :=
  (I.people.map Person.name).filter (fun p => decide (st.counts p < I.maxChores))

/-- Candidates after the repeat-avoidance rule with its availability
fallback (when removing the last assignee empties the set, the rule is
ignored for this occurrence). -/
def repeatCands (I : Inputs) (st : EState) (job : Job) : List String :=
  if I.avoidRepeats && truthy (st.last job.choreId) then
    if (baseCands I st).filter (fun p => decide (some p ≠ st.last job.choreId)) = []
    then baseCands I st
    else (baseCands I st).filter (fun p => decide (some p ≠ st.last job.choreId))
  else baseCands I st

/-- Candidates after the duplicate-in-week rule. -/
def greedyCands (I : Inputs) (st : EState) (job : Job) : List String :=
  (repeatCands I st job).filter
    (fun p => !(I.noDupPerWeek &&
      st.assignments.any (fun a => decide (a.person = p) && decide (a.choreId = job.choreId))))

/-- One step of the greedy balancer for one job: filter the candidates,
sort them, and assign to the first, if any (a job with no candidate is
dropped). -/
def greedyStep (I : Inputs) (st : EState) (job : Job) : EState :=
  match sortCmp (candCmp I.tb st) (greedyCands I st job) with
  | [] => st
  | chosen :: _ => pushAssign st chosen job

/-- `canMove` from the source: an assignment is movable when its chore
exists in the catalog and is not quarterly. -/
def canMove (chores : List Chore) (a : Assignment) : Bool :=
  match chores.find? (fun c => decide (c.id = a.choreId)) with
  | some c => decide (c.freq ≠ "quarterly")
  | none => false

/-- Reassign the first occurrence of the tuple `t` to `needy`
(the in-place `take.person = needy` of the source). -/
def setPersonFirst (t : Assignment) (needy : String) : List Assignment → List Assignment
  | [] => []
  | a :: as =>
      if a = t then { a with person := needy } :: as
      else a :: setPersonFirst t needy as

/-- Apply one repair move: retarget the tuple and update the two people's
counts and loads (the last-assignee map is untouched, as in the source). -/
def moveAssignment (st : EState) (needy donor : String) (take : Assignment) : EState :=
  { assignments := setPersonFirst take needy st.assignments
    counts := fun p =>
      if p = needy then (if p = donor then st.counts p - 1 else st.counts p) + 1
      else (if p = donor then st.counts p - 1 else st.counts p)
    loads := fun p =>
      if p = needy then (if p = donor then st.loads p - take.weight else st.loads p) + take.weight
      else (if p = donor then st.loads p - take.weight else st.loads p)
    last := st.last }

/-- The people currently below the minimum bound, in roster order. -/
def belowList (I : Inputs) (st : EState) : List String :=
  (I.people.map Person.name).filter (fun p => decide (st.counts p < I.minChores))

/-- The people currently above the minimum bound, sorted by descending
count. -/
def aboveList (I : Inputs) (st : EState) : List String :=
  sortCmp (fun a b => (st.counts b : Int) - (st.counts a : Int))
    ((I.people.map Person.name).filter (fun p => decide (I.minChores < st.counts p)))

/-- A donor's movable assignments for a given needy person, lightest
first: the chore must not be quarterly and moving it must not create a
duplicate-in-week violation. -/
def movable (I : Inputs) (st : EState) (needy donor : String) : List Assignment :=
  sortCmp (fun a b => a.weight - b.weight)
    (st.assignments.filter (fun a =>
      decide (a.person = donor) && canMove I.chores a &&
      (!I.noDupPerWeek ||
        !(st.assignments.any (fun x =>
          decide (x.person = needy) && decide (x.choreId = a.choreId))))))

/-- One iteration of the repair loop body: recompute `below` and `above`;
stop when either is empty; otherwise perform the first move found (first
needy in roster order, first donor in descending-count order, lightest
movable assignment), or stop when no move exists. -/
def repairStep (I : Inputs) (st : EState) : Option EState :=
  if belowList I st = [] ∨ aboveList I st = [] then none
  else
    (belowList I st).findSome? (fun needy =>
      (aboveList I st).findSome? (fun donor =>
        ((movable I st needy donor).head?).map
          (fun take => moveAssignment st needy donor take)))

/-- The guarded repair loop (`while (changed && guard++ < 100)`). -/
def repairLoop (I : Inputs) : Nat → EState → EState
  | 0, st => st
  | Nat.succ fuel, st =>
      match repairStep I st with
      | none => st
      | some st' => repairLoop I fuel st'

/-- The fresh state of a week: empty assignments, zero maps, the incoming
last-assignee map. -/
def initState (last : Nat → Option String) : EState :=
  { assignments := [], loads := fun _ => 0, counts := fun _ => 0, last := last }

/-- State after the group-week (quarterly fan-out) stage of week `w`. -/
def stageGroup (I : Inputs) (w : Nat) (last : Nat → Option String) : EState :=
  (qJobs w I.chores).foldl (fun st q => fanout I q st) (initState last)

/-- State after the greedy balancer stage of week `w`. -/
def stageGreedy (I : Inputs) (w : Nat) (last : Nat → Option String) : EState :=
  (sortCmp (jobCmp I.tb) (iJobs w I.chores)).foldl (greedyStep I) (stageGroup I w last)

/-- State after the bound repair pass of week `w` (the week's final state). -/
def stageFinal (I : Inputs) (w : Nat) (last : Nat → Option String) : EState :=
  repairLoop I 100 (stageGreedy I w last)

/-- The last-assignee map threaded into week `w` by the cycle driver. -/
def lastMap (I : Inputs) : Nat → (Nat → Option String)
  | 0 => fun _ => none
  | w + 1 => (stageFinal I w (lastMap I w)).last

/-- The output record of week `w`. -/
def weekRec (I : Inputs) (w : Nat) : WeekRec :=
  let st := stageFinal I w (lastMap I w)
  { week := w + 1, assignments := st.assignments, loads := st.loads, counts := st.counts }

/-- The allocation entry point (the `weeks` useMemo): empty roster or empty
catalog short-circuits to the empty list, otherwise one record per week. -/
def alloc (I : Inputs) : List WeekRec :=
  if I.people = [] ∨ I.chores = [] then []
  else (List.range I.cycleWeeks).map (weekRec I)

/-- Number of assignment tuples naming person `p`. -/
def countAgg (l : List Assignment) (p : String) : Nat :=
  (l.filter (fun a => decide (a.person = p))).length

/-- Sum of weights of the tuples naming person `p`. -/
def loadAgg (l : List Assignment) (p : String) : Int :=
  ((l.filter (fun a => decide (a.person = p))).map Assignment.weight).sum

/-- The counts and loads maps agree with the aggregation of the
assignment list. -/
def AggOk (st : EState) : Prop :=
  ∀ p, st.counts p = countAgg st.assignments p ∧ st.loads p = loadAgg st.assignments p

/-- Number of roster members whose week count is below the minimum. -/
def numBelow (I : Inputs) (st : EState) : Nat :=
  (belowList I st).length

/-- Number of roster members whose week count is above the minimum. -/
def numAbove (I : Inputs) (st : EState) : Nat :=
  ((I.people.map Person.name).filter (fun p => decide (I.minChores < st.counts p))).length

/-- Total shortfall of the roster below the minimum bound. -/
def deficit (I : Inputs) (st : EState) : Nat :=
  ((I.people.map Person.name).map (fun p => I.minChores - st.counts p)).sum

/-- The non-person payload of an assignment tuple. -/
def stripPerson (a : Assignment) : Nat × String × Option String × Int :=
  (a.choreId, a.choreName, a.area, a.weight)

/-- Modelled from the spec (section 4.1, `monthly`): the chore's zero-based
rank among all monthly chores in catalog order. -/
def specMonthlyRank (chores : List Chore) (c : Chore) : Nat :=
  (chores.filter (fun x => decide (x.freq = "monthly"))).findIdx (fun x => decide (x.id = c.id))

/-- Modelled from the spec (section 4.1, `monthly`): due exactly when
`weekIndex mod 4 == rank mod 4`. -/
def specMonthlyOccurrences (chores : List Chore) (c : Chore) (w : Nat) : Nat :=
  if w % 4 = specMonthlyRank chores c % 4 then 1 else 0

/-! Concrete inputs used by the counterexamples and witnesses below. -/

/-- A tie-break key at a wall-clock instant ordering the `uid` values by
seed (ascending). -/
def tbId : Nat → Int := fun n => (n : Int)

/-- A tie-break key at a wall-clock instant ordering the `uid` values by
seed (descending). -/
def tbNeg : Nat → Int := fun n => -(n : Int)

/-- The source's `DEFAULT_CHORES` catalog. -/
def DEFAULT_CHORES : List Chore :=
  [ ⟨1, "Dusting", some "Living Room", 3, "weekly"⟩
  , ⟨2, "Coffee table", some "Living Room", 1, "weekly"⟩
  , ⟨3, "Side tables", some "Living Room", 1, "weekly"⟩
  , ⟨4, "Wipe counters", some "Kitchen", 2, "weekly"⟩
  , ⟨5, "Clean sink", some "Kitchen", 2, "weekly"⟩
  , ⟨6, "Organizing fridge", some "Kitchen", 2, "weekly"⟩
  , ⟨7, "Wipe washer & dryer", some "Laundry Room", 2, "weekly"⟩
  , ⟨8, "Clean cat food bowls", some "Laundry Room", 1, "weekly"⟩
  , ⟨9, "Sweep stairs", some "Stairs", 3, "weekly"⟩
  , ⟨10, "Clean windows", some "All Rooms", 5, "monthly"⟩
  , ⟨11, "Wipe doors", some "All Rooms", 3, "monthly"⟩
  , ⟨12, "Wipe down trash can", some "Laundry", 2, "monthly"⟩
  , ⟨13, "Deep clean fridge", some "Kitchen", 4, "monthly"⟩
  , ⟨14, "Organizing cabinets", some "Kitchen", 3, "monthly"⟩
  , ⟨15, "Downstairs bathroom", some "Bathroom", 4, "monthly"⟩
  , ⟨16, "Clean dishwasher gasket", some "Kitchen", 2, "monthly"⟩
  , ⟨17, "Clean dishwasher drain", some "Kitchen", 3, "monthly"⟩
  , ⟨18, "Change Filter", some "Upstairs", 3, "quarterly"⟩
  , ⟨19, "Clean baseboards", some "All Rooms", 4, "quarterly"⟩
  , ⟨20, "Wash curtains", some "Living Room", 4, "quarterly"⟩ ]

/-- One person, two equal-weight weekly chores, one week. -/
def c1I : Inputs :=
  { people := [⟨"Ann", none⟩]
    chores := [⟨1, "c1", none, 2, "weekly"⟩, ⟨2, "c2", none, 2, "weekly"⟩]
    cycleWeeks := 1, minChores := 0, maxChores := 10
    avoidRepeats := false, noDupPerWeek := false, tb := tbId }

/-- One person, two quarterly chores, max bound 1. -/
def c2I : Inputs :=
  { people := [⟨"Ann", none⟩]
    chores := [⟨1, "Q1", none, 2, "quarterly"⟩, ⟨2, "Q2", none, 3, "quarterly"⟩]
    cycleWeeks := 1, minChores := 1, maxChores := 1
    avoidRepeats := true, noDupPerWeek := true, tb := tbId }

/-- A policy with maxPerWeek strictly below minPerWeek. -/
def c4I : Inputs :=
  { people := [⟨"Ann", none⟩]
    chores := [⟨1, "c", none, 2, "weekly"⟩]
    cycleWeeks := 2, minChores := 3, maxChores := 1
    avoidRepeats := false, noDupPerWeek := false, tb := tbId }

/-- Two people and five chores whose avoid-repeat chains make every chore
due in week 4 carry `lastAssignee = "Bob"`, so the greedy stage of week 4
gives all five occurrences to "Ann" (counts 5 versus 0 with
`minChores = 2`).

This run never consults the wall-clock tie-break key, so it is realized at
every `Date.now()` instant: the five weights are pairwise distinct, so the
job comparator always decides on its weight difference before reaching
`uid(a.choreId) - uid(b.choreId)`; and the two roster names have equal
length 3, so the candidate comparator's final term is
`uid(p1.length) - uid(p2.length) = uid(3) - uid(3) = 0` identically and
every candidate tie falls back to the stable roster order.  The `tb` field
is therefore irrelevant to the computation (the counterexample also
exhibits the run at the opposite-ordering key `tbNeg`). -/
def c5I : Inputs :=
  { people := [⟨"Ann", none⟩, ⟨"Bob", none⟩]
    chores :=
      [ ⟨1, "M1", none, 4, "monthly"⟩
      , ⟨2, "W1", none, 5, "weekly"⟩
      , ⟨3, "W2", none, 2, "weekly"⟩
      , ⟨4, "B1", none, 1, "every_2_weeks"⟩
      , ⟨5, "M2", none, 3, "monthly"⟩ ]
    cycleWeeks := 5, minChores := 2, maxChores := 10
    avoidRepeats := true, noDupPerWeek := false, tb := tbId }

/-- The same snapshots and policy sampled at an instant whose tie-break
key orders the seeds the opposite way: the computation is identical
because the key is never consulted at this input. -/
def c5Ib : Inputs := { c5I with tb := tbNeg }

/-- A small two-person input for witness states of the repair lemmas. -/
def c5wI : Inputs :=
  { people := [⟨"Ann", none⟩, ⟨"Bob", none⟩]
    chores := [⟨1, "c", none, 2, "weekly"⟩, ⟨2, "d", none, 1, "weekly"⟩]
    cycleWeeks := 1, minChores := 1, maxChores := 5
    avoidRepeats := false, noDupPerWeek := false, tb := tbId }

/-- A state in which "Ann" holds two assignments and "Bob" none. -/
def c5wSt : EState :=
  { assignments := [⟨"Ann", 1, "c", none, 2⟩, ⟨"Ann", 2, "d", none, 1⟩]
    loads := fun p => if p = "Ann" then 3 else 0
    counts := fun p => if p = "Ann" then 2 else 0
    last := fun _ => none }

/-- Two people, one quarterly and one weekly chore. -/
def c7I : Inputs :=
  { people := [⟨"Ann", none⟩, ⟨"Bob", none⟩]
    chores := [⟨1, "Q", none, 3, "quarterly"⟩, ⟨2, "W", none, 2, "weekly"⟩]
    cycleWeeks := 1, minChores := 1, maxChores := 5
    avoidRepeats := true, noDupPerWeek := true, tb := tbId }

/-- A two-person input for the C9 and C10 witness states. -/
def c9I : Inputs :=
  { people := [⟨"Cal", none⟩, ⟨"Dee", none⟩]
    chores := [⟨1, "c", none, 2, "weekly"⟩, ⟨2, "d", none, 1, "weekly"⟩]
    cycleWeeks := 1, minChores := 1, maxChores := 5
    avoidRepeats := false, noDupPerWeek := false, tb := tbId }

/-- A state in which "Cal" holds two assignments and "Dee" none. -/
def c9St : EState :=
  { assignments := [⟨"Cal", 1, "c", none, 2⟩, ⟨"Cal", 2, "d", none, 1⟩]
    loads := fun p => if p = "Cal" then 3 else 0
    counts := fun p => if p = "Cal" then 2 else 0
    last := fun _ => none }

/-! Generic list helpers used by several proofs. -/

theorem mem_insCmp {cmp : α → α → Int} {x y : α} :
    ∀ {l : List α}, y ∈ insCmp cmp x l ↔ y = x ∨ y ∈ l
  | [] => by simp [insCmp]
  | z :: zs => by
    simp only [insCmp]
    split
    · simp [or_comm, or_left_comm]
    · rw [List.mem_cons, List.mem_cons, mem_insCmp (l := zs)]
      tauto

theorem mem_sortCmp {cmp : α → α → Int} {y : α} :
    ∀ {l : List α}, y ∈ sortCmp cmp l ↔ y ∈ l
  | [] => Iff.rfl
  | z :: zs => by
    simp only [sortCmp, mem_insCmp, List.mem_cons, mem_sortCmp (l := zs)]

theorem length_filter_mono {p q : α → Bool} :
    ∀ {l : List α}, (∀ a ∈ l, p a = true → q a = true) →
      (l.filter p).length ≤ (l.filter q).length
  | [], _ => Nat.le_refl _
  | a :: l, h => by
    have ih := length_filter_mono (l := l) (fun b hb => h b (List.mem_cons_of_mem a hb))
    have ha := h a (List.mem_cons_self a l)
    cases hp : p a with
    | false =>
      cases hq : q a with
      | false => simpa [List.filter_cons, hp, hq] using ih
      | true =>
        simp [List.filter_cons, hp, hq]
        omega
    | true =>
      have hq := ha hp
      simp [List.filter_cons, hp, hq]
      omega

theorem sum_le_sum_pointwise {f g : α → Nat} :
    ∀ {l : List α}, (∀ a ∈ l, f a ≤ g a) → (l.map f).sum ≤ (l.map g).sum
  | [], _ => Nat.le_refl _
  | a :: l, h => by
    have ih := sum_le_sum_pointwise (l := l) (fun b hb => h b (List.mem_cons_of_mem a hb))
    have ha := h a (List.mem_cons_self a l)
    simp only [List.map_cons, List.sum_cons]
    omega

theorem sum_lt_sum_pointwise {f g : α → Nat} {x : α} :
    ∀ {l : List α}, (∀ a ∈ l, f a ≤ g a) → x ∈ l → f x < g x →
      (l.map f).sum < (l.map g).sum
  | [], _, hx, _ => absurd hx (List.not_mem_nil x)
  | a :: l, h, hx, hlt => by
    have ha := h a (List.mem_cons_self a l)
    have htail : ∀ b ∈ l, f b ≤ g b := fun b hb => h b (List.mem_cons_of_mem a hb)
    simp only [List.map_cons, List.sum_cons]
    rcases List.mem_cons.mp hx with rfl | hx'
    · have := sum_le_sum_pointwise (l := l) htail
      omega
    · have := sum_lt_sum_pointwise (l := l) htail hx' hlt
      omega

theorem mem_of_head?_eq_some {l : List α} {a : α} (h : l.head? = some a) : a ∈ l := by
  cases l with
  | nil => simp at h
  | cons x xs =>
    simp only [List.head?_cons, Option.some.injEq] at h
    simp [h]

theorem filter_length_nodup_mem {l : List String} {nm : String}
    (hd : l.Nodup) (hm : nm ∈ l) :
    (l.filter (fun p => decide (p = nm))).length = 1 := by
  induction l with
  | nil => simp at hm
  | cons a l ih =>
    rcases List.nodup_cons.mp hd with ⟨hna, hdl⟩
    rcases List.mem_cons.mp hm with rfl | hm'
    · have hfl : l.filter (fun p => decide (p = nm)) = [] := by
        apply List.filter_eq_nil_iff.mpr
        intro b hb
        simp only [decide_eq_true_eq]
        intro hba
        exact hna (hba ▸ hb)
      simp [List.filter_cons, hfl]
    · have hne : ¬ (a = nm) := fun h => hna (h ▸ hm')
      simp [List.filter_cons, hne, ih hdl hm']

/-! Structural facts about the greedy stage. -/

theorem foldl_preserves {σ β : Type} {P : σ → Prop} {f : σ → β → σ} :
    ∀ {l : List β}, (∀ s b, b ∈ l → P s → P (f s b)) → ∀ {s}, P s → P (l.foldl f s)
  | [], _, _, hs => hs
  | b :: l, h, s, hs => by
    simp only [List.foldl_cons]
    exact foldl_preserves (fun s' b' hb' => h s' b' (List.mem_cons_of_mem b hb'))
      (h s b (List.mem_cons_self b l) hs)

theorem mem_repeatCands {I : Inputs} {st : EState} {job : Job} {p : String}
    (h : p ∈ repeatCands I st job) : p ∈ baseCands I st := by
  unfold repeatCands at h
  split at h
  · split at h
    · exact h
    · exact List.mem_of_mem_filter h
  · exact h

theorem counts_lt_of_mem_greedyCands {I : Inputs} {st : EState} {job : Job} {p : String}
    (h : p ∈ greedyCands I st job) : st.counts p < I.maxChores := by
  have h2 := mem_repeatCands (List.mem_of_mem_filter h)
  have h3 := (List.mem_filter.mp h2).2
  simpa using h3

theorem greedyStep_cases (I : Inputs) (st : EState) (job : Job) :
    greedyStep I st job = st ∨
    ∃ chosen, st.counts chosen < I.maxChores ∧
      greedyStep I st job = pushAssign st chosen job := by
  cases h : sortCmp (candCmp I.tb st) (greedyCands I st job) with
  | nil => exact Or.inl (by unfold greedyStep; rw [h])
  | cons chosen rest =>
    have hm : chosen ∈ sortCmp (candCmp I.tb st) (greedyCands I st job) := by
      rw [h]; exact List.mem_cons_self _ _
    exact Or.inr ⟨chosen, counts_lt_of_mem_greedyCands (mem_sortCmp.mp hm),
      by unfold greedyStep; rw [h]⟩

theorem greedy_counts_le (I : Inputs) (js : List Job) (st0 : EState) (p : String) :
    (js.foldl (greedyStep I) st0).counts p ≤ max I.maxChores (st0.counts p) := by
  have key : ∀ q, (js.foldl (greedyStep I) st0).counts q ≤ max I.maxChores (st0.counts q) := by
    apply foldl_preserves (P := fun (st : EState) => ∀ q, st.counts q ≤ max I.maxChores (st0.counts q))
    · intro st job _ hst q
      rcases greedyStep_cases I st job with heq | ⟨chosen, hlt, heq⟩
      · rw [heq]; exact hst q
      · rw [heq]
        simp only [pushAssign]
        split
        · next hqc =>
            subst hqc
            exact le_trans (Nat.succ_le_of_lt hlt) (le_max_left _ _)
        · exact hst q
    · intro q
      exact le_max_right _ _
  exact key p

/-! Inversion of one repair move. -/

theorem repairStep_eq_some {I : Inputs} {st st' : EState}
    (h : repairStep I st = some st') :
    ∃ needy donor take,
      needy ∈ I.people.map Person.name ∧
      st.counts needy < I.minChores ∧
      I.minChores < st.counts donor ∧
      take ∈ st.assignments ∧
      take.person = donor ∧
      canMove I.chores take = true ∧
      st' = moveAssignment st needy donor take := by
  unfold repairStep at h
  split at h
  · exact absurd h (by simp)
  · obtain ⟨needy, hnmem, h1⟩ := List.exists_of_findSome?_eq_some h
    obtain ⟨donor, hdmem, h2⟩ := List.exists_of_findSome?_eq_some h1
    obtain ⟨take, htake, h3⟩ := Option.map_eq_some'.mp h2
    have htm' := mem_sortCmp.mp (mem_of_head?_eq_some htake)
    have hfl := List.mem_filter.mp htm'
    have hnb := List.mem_filter.mp hnmem
    have hda := List.mem_filter.mp (mem_sortCmp.mp hdmem)
    have hpred := hfl.2
    simp only [Bool.and_eq_true, decide_eq_true_eq] at hpred
    exact ⟨needy, donor, take, hnb.1,
      by simpa using hnb.2,
      by simpa using hda.2,
      hfl.1,
      hpred.1.1,
      hpred.1.2,
      h3.symm⟩

/-! Counts and loads as aggregations of the assignment list. -/

theorem countAgg_cons (a : Assignment) (l : List Assignment) (p : String) :
    countAgg (a :: l) p = if p = a.person then countAgg l p + 1 else countAgg l p := by
  by_cases h : p = a.person
  · subst h
    simp [countAgg, List.filter_cons]
  · have h' : ¬ (a.person = p) := fun hh => h hh.symm
    simp [countAgg, List.filter_cons, h, h']

theorem loadAgg_cons (a : Assignment) (l : List Assignment) (p : String) :
    loadAgg (a :: l) p = if p = a.person then a.weight + loadAgg l p else loadAgg l p := by
  by_cases h : p = a.person
  · subst h
    simp [loadAgg, List.filter_cons]
  · have h' : ¬ (a.person = p) := fun hh => h hh.symm
    simp [loadAgg, List.filter_cons, h, h']

theorem setPersonFirst_countAgg (t : Assignment) (needy : String) :
    ∀ {l : List Assignment}, t ∈ l → ∀ p,
      countAgg (setPersonFirst t needy l) p + (if p = t.person then 1 else 0)
        = countAgg l p + (if p = needy then 1 else 0)
  | [], ht, _ => absurd ht (List.not_mem_nil t)
  | a :: as, ht, p => by
    simp only [setPersonFirst]
    split
    · next hat =>
      subst hat
      have hperson : ({ a with person := needy } : Assignment).person = needy := rfl
      rw [countAgg_cons, countAgg_cons, hperson]
      split_ifs <;> omega
    · next hat =>
      have ht' : t ∈ as := by
        rcases List.mem_cons.mp ht with h | h
        · exact absurd h.symm hat
        · exact h
      have ih := setPersonFirst_countAgg t needy ht' p
      rw [countAgg_cons, countAgg_cons]
      split_ifs at ih ⊢ <;> omega

theorem setPersonFirst_loadAgg (t : Assignment) (needy : String) :
    ∀ {l : List Assignment}, t ∈ l → ∀ p,
      loadAgg (setPersonFirst t needy l) p + (if p = t.person then t.weight else 0)
        = loadAgg l p + (if p = needy then t.weight else 0)
  | [], ht, _ => absurd ht (List.not_mem_nil t)
  | a :: as, ht, p => by
    simp only [setPersonFirst]
    split
    · next hat =>
      subst hat
      have hperson : ({ a with person := needy } : Assignment).person = needy := rfl
      have hweight : ({ a with person := needy } : Assignment).weight = a.weight := rfl
      rw [loadAgg_cons, loadAgg_cons, hperson, hweight]
      split_ifs <;> omega
    · next hat =>
      have ht' : t ∈ as := by
        rcases List.mem_cons.mp ht with h | h
        · exact absurd h.symm hat
        · exact h
      have ih := setPersonFirst_loadAgg t needy ht' p
      rw [loadAgg_cons, loadAgg_cons]
      split_ifs at ih ⊢ <;> omega

theorem setPersonFirst_strip (t : Assignment) (needy : String) :
    ∀ l : List Assignment, (setPersonFirst t needy l).map stripPerson = l.map stripPerson
  | [] => rfl
  | a :: as => by
    simp only [setPersonFirst]
    split
    · simp [stripPerson]
    · simp [setPersonFirst_strip t needy as]

theorem aggOk_initState (last : Nat → Option String) : AggOk (initState last) := by
  intro p
  constructor <;> simp [initState, countAgg, loadAgg]

theorem aggOk_pushAssign {st : EState} (h : AggOk st) (person : String) (job : Job) :
    AggOk (pushAssign st person job) := by
  intro p
  have hp := h p
  by_cases hpp : p = person
  · subst hpp
    constructor
    · simp [pushAssign, countAgg, List.filter_append, hp.1, countAgg_cons]
    · simp [pushAssign, loadAgg, List.filter_append, hp.2, loadAgg_cons]
  · have hpp' : ¬ (person = p) := fun hh => hpp hh.symm
    constructor
    · simp [pushAssign, countAgg, List.filter_append, hp.1, hpp, hpp']
    · simp [pushAssign, loadAgg, List.filter_append, hp.2, hpp, hpp']

theorem aggOk_moveAssignment {st : EState} {needy donor : String} {take : Assignment}
    (h : AggOk st) (htm : take ∈ st.assignments) (htp : take.person = donor) :
    AggOk (moveAssignment st needy donor take) := by
  intro p
  have hp := h p
  have hc := setPersonFirst_countAgg take needy htm p
  have hl := setPersonFirst_loadAgg take needy htm p
  rw [htp] at hc hl
  have hpos : 0 < countAgg st.assignments donor := by
    have hmem : take ∈ st.assignments.filter (fun a => decide (a.person = donor)) :=
      List.mem_filter.mpr ⟨htm, by simp [htp]⟩
    exact List.length_pos_of_mem hmem
  have hcp := hp.1
  have hlp := hp.2
  constructor
  · show (if p = needy then (if p = donor then st.counts p - 1 else st.counts p) + 1
          else (if p = donor then st.counts p - 1 else st.counts p))
        = countAgg (setPersonFirst take needy st.assignments) p
    by_cases h1 : p = needy
    · subst h1
      by_cases h2 : p = donor
      · subst h2
        simp at hc ⊢
        omega
      · simp [h2] at hc ⊢
        omega
    · by_cases h2 : p = donor
      · subst h2
        simp [h1] at hc ⊢
        omega
      · simp [h1, h2] at hc ⊢
        omega
  · show (if p = needy then (if p = donor then st.loads p - take.weight else st.loads p) + take.weight
          else (if p = donor then st.loads p - take.weight else st.loads p))
        = loadAgg (setPersonFirst take needy st.assignments) p
    by_cases h1 : p = needy
    · subst h1
      by_cases h2 : p = donor
      · subst h2
        simp at hl ⊢
        omega
      · simp [h2] at hl ⊢
        omega
    · by_cases h2 : p = donor
      · subst h2
        simp [h1] at hl ⊢
        omega
      · simp [h1, h2] at hl ⊢
        omega

/-! Frame and preservation facts for the repair pass and the stages. -/

theorem repairStep_last {I : Inputs} {st st' : EState} (h : repairStep I st = some st') :
    st'.last = st.last := by
  obtain ⟨needy, donor, take, _, _, _, _, _, _, heq⟩ := repairStep_eq_some h
  rw [heq]
  rfl

theorem repairLoop_last (I : Inputs) :
    ∀ (fuel : Nat) (st : EState), (repairLoop I fuel st).last = st.last
  | 0, _ => rfl
  | Nat.succ fuel, st => by
    simp only [repairLoop]
    cases h : repairStep I st with
    | none => rfl
    | some st' => rw [repairLoop_last I fuel st', repairStep_last h]

theorem repairStep_strip {I : Inputs} {st st' : EState} (h : repairStep I st = some st') :
    st'.assignments.map stripPerson = st.assignments.map stripPerson := by
  obtain ⟨needy, donor, take, _, _, _, _, _, _, heq⟩ := repairStep_eq_some h
  rw [heq]
  exact setPersonFirst_strip take needy st.assignments

theorem aggOk_repairStep {I : Inputs} {st st' : EState} (h : AggOk st)
    (hs : repairStep I st = some st') : AggOk st' := by
  obtain ⟨needy, donor, take, _, _, _, htm, htp, _, heq⟩ := repairStep_eq_some hs
  rw [heq]
  exact aggOk_moveAssignment h htm htp

theorem aggOk_repairLoop (I : Inputs) :
    ∀ (fuel : Nat) (st : EState), AggOk st → AggOk (repairLoop I fuel st)
  | 0, _, h => h
  | Nat.succ fuel, st, h => by
    simp only [repairLoop]
    cases hs : repairStep I st with
    | none => exact h
    | some st' => exact aggOk_repairLoop I fuel st' (aggOk_repairStep h hs)

theorem aggOk_fanout (I : Inputs) (q : Job) {st : EState} (h : AggOk st) :
    AggOk (fanout I q st) := by
  apply foldl_preserves (P := AggOk) ?_ h
  intro s person _ hs
  split
  · exact hs
  · exact aggOk_pushAssign hs person q

theorem aggOk_stageGroup (I : Inputs) (w : Nat) (last : Nat → Option String) :
    AggOk (stageGroup I w last) := by
  unfold stageGroup
  apply foldl_preserves (P := AggOk)
  · intro s q _ hs
    exact aggOk_fanout I q hs
  · exact aggOk_initState last

theorem aggOk_greedyStep (I : Inputs) {st : EState} (h : AggOk st) (job : Job) :
    AggOk (greedyStep I st job) := by
  rcases greedyStep_cases I st job with heq | ⟨chosen, _, heq⟩
  · rw [heq]; exact h
  · rw [heq]; exact aggOk_pushAssign h chosen job

theorem aggOk_stageGreedy (I : Inputs) (w : Nat) (last : Nat → Option String) :
    AggOk (stageGreedy I w last) := by
  unfold stageGreedy
  apply foldl_preserves (P := AggOk)
  · intro s job _ hs
    exact aggOk_greedyStep I hs job
  · exact aggOk_stageGroup I w last

theorem aggOk_stageFinal (I : Inputs) (w : Nat) (last : Nat → Option String) :
    AggOk (stageFinal I w last) :=
  aggOk_repairLoop I 100 _ (aggOk_stageGreedy I w last)

/-! Deficit and below-count facts for one repair move. -/

theorem repairStep_deficit {I : Inputs} {st st' : EState} (h : repairStep I st = some st') :
    deficit I st' < deficit I st := by
  obtain ⟨needy, donor, take, hnP, hnlt, hdgt, _, _, _, heq⟩ := repairStep_eq_some h
  subst heq
  have hnd : needy ≠ donor := by
    intro hh
    rw [hh] at hnlt
    omega
  unfold deficit
  apply sum_lt_sum_pointwise ?hle hnP ?hlt
  case hle =>
    intro p _
    show I.minChores -
        (if p = needy then (if p = donor then st.counts p - 1 else st.counts p) + 1
         else (if p = donor then st.counts p - 1 else st.counts p)) ≤
      I.minChores - st.counts p
    by_cases h1 : p = needy
    · subst h1
      have h2 : ¬ (p = donor) := hnd
      simp [h2]
      omega
    · by_cases h2 : p = donor
      · subst h2
        simp [h1]
        omega
      · simp [h1, h2]
  case hlt =>
    show I.minChores -
        (if needy = needy then (if needy = donor then st.counts needy - 1 else st.counts needy) + 1
         else (if needy = donor then st.counts needy - 1 else st.counts needy)) <
      I.minChores - st.counts needy
    simp [hnd]
    omega

theorem repairStep_deficit_ge_one {I : Inputs} {st st' : EState}
    (h : repairStep I st = some st') : 1 ≤ deficit I st := by
  obtain ⟨needy, donor, take, hnP, hnlt, _, _, _, _, _⟩ := repairStep_eq_some h
  have hmem : I.minChores - st.counts needy ∈
      (I.people.map Person.name).map (fun p => I.minChores - st.counts p) :=
    List.mem_map_of_mem _ hnP
  have hle := List.single_le_sum (fun (x : Nat) _ => Nat.zero_le x) _ hmem
  unfold deficit
  omega

theorem repairStep_min_preserved {I : Inputs} {st st' : EState}
    (h : repairStep I st = some st') (p : String)
    (hp : I.minChores ≤ st.counts p) : I.minChores ≤ st'.counts p := by
  obtain ⟨needy, donor, take, _, hnlt, hdgt, _, _, _, heq⟩ := repairStep_eq_some h
  subst heq
  show I.minChores ≤
      (if p = needy then (if p = donor then st.counts p - 1 else st.counts p) + 1
       else (if p = donor then st.counts p - 1 else st.counts p))
  by_cases h1 : p = needy
  · subst h1
    omega
  · by_cases h2 : p = donor
    · subst h2
      simp [h1]
      omega
    · simp [h1, h2]
      exact hp

theorem repairStep_numBelow {I : Inputs} {st st' : EState}
    (h : repairStep I st = some st') : numBelow I st' ≤ numBelow I st := by
  obtain ⟨needy, donor, take, _, hnlt, hdgt, _, _, _, heq⟩ := repairStep_eq_some h
  subst heq
  unfold numBelow belowList
  apply length_filter_mono
  intro p _ hp
  simp only [decide_eq_true_eq] at hp ⊢
  revert hp
  show (if p = needy then (if p = donor then st.counts p - 1 else st.counts p) + 1
        else (if p = donor then st.counts p - 1 else st.counts p)) < I.minChores →
    st.counts p < I.minChores
  by_cases h1 : p = needy
  · subst h1
    by_cases h2 : p = donor
    · subst h2
      simp
      omega
    · simp [h2]
      omega
  · by_cases h2 : p = donor
    · subst h2
      simp [h1]
      omega
    · simp [h1, h2]

/-! Fuel insensitivity of the repair loop beyond the remaining deficit. -/

theorem deficit_zero_repairStep {I : Inputs} {st : EState} (h : deficit I st = 0) :
    repairStep I st = none := by
  have hb : belowList I st = [] := by
    unfold belowList
    apply List.filter_eq_nil_iff.mpr
    intro p hp
    simp only [decide_eq_true_eq]
    intro hlt
    have hz : I.minChores - st.counts p = 0 :=
      List.sum_eq_zero_iff.mp h _ (List.mem_map_of_mem _ hp)
    omega
  unfold repairStep
  rw [if_pos (Or.inl hb)]

theorem repairLoop_fuel_eq (I : Inputs) :
    ∀ (f : Nat) (st : EState) (g : Nat), deficit I st ≤ f → deficit I st ≤ g →
      repairLoop I f st = repairLoop I g st
  | 0, st, g, hf, _ => by
    have h0 : deficit I st = 0 := Nat.le_zero.mp hf
    have hn := deficit_zero_repairStep h0
    cases g with
    | zero => rfl
    | succ g' => simp only [repairLoop, hn]
  | Nat.succ f', st, g, hf, hg => by
    cases h : repairStep I st with
    | none =>
      cases g with
      | zero => simp only [repairLoop, h]
      | succ g' => simp only [repairLoop, h]
    | some st' =>
      have h1 : 1 ≤ deficit I st := repairStep_deficit_ge_one h
      have hdec : deficit I st' < deficit I st := repairStep_deficit h
      cases g with
      | zero => omega
      | succ g' =>
        simp only [repairLoop, h]
        exact repairLoop_fuel_eq I f' st' g' (by omega) (by omega)

/-! The quarterly fan-out: job provenance and filter characterizations. -/

theorem mem_qJobs {w : Nat} {j : Job} :
    ∀ {cs : List Chore}, j ∈ qJobs w cs → ∃ c, c ∈ cs ∧ c.freq = "quarterly" ∧ j = mkJob c
  | [], h => absurd h (List.not_mem_nil j)
  | c :: cs, h => by
    rw [qJobs] at h
    rcases List.mem_append.mp h with h1 | h2
    · split at h1
      · next hfq =>
        exact ⟨c, List.mem_cons_self c cs, hfq, List.eq_of_mem_replicate h1⟩
      · exact absurd h1 (List.not_mem_nil j)
    · obtain ⟨c', hc', hfq, hj⟩ := mem_qJobs h2
      exact ⟨c', List.mem_cons_of_mem c hc', hfq, hj⟩

theorem mem_iJobs {w : Nat} {j : Job} :
    ∀ {cs : List Chore}, j ∈ iJobs w cs → ∃ c, c ∈ cs ∧ ¬ (c.freq = "quarterly") ∧ j = mkJob c
  | [], h => absurd h (List.not_mem_nil j)
  | c :: cs, h => by
    rw [iJobs] at h
    rcases List.mem_append.mp h with h1 | h2
    · split at h1
      · exact absurd h1 (List.not_mem_nil j)
      · next hfq =>
        exact ⟨c, List.mem_cons_self c cs, hfq, List.eq_of_mem_replicate h1⟩
    · obtain ⟨c', hc', hfq, hj⟩ := mem_iJobs h2
      exact ⟨c', List.mem_cons_of_mem c hc', hfq, hj⟩

theorem qJobs_filter_eq {w : Nat} {q : Chore} :
    ∀ {cs : List Chore}, (cs.map Chore.id).Nodup → q ∈ cs → q.freq = "quarterly" →
      occurrencesInWeek q w = 1 →
      (qJobs w cs).filter (fun j => decide (j.choreId = q.id)) = [mkJob q]
  | [], _, hq, _, _ => absurd hq (List.not_mem_nil q)
  | c :: cs, hids, hq, hfq, hocc => by
    rw [List.map_cons, List.nodup_cons] at hids
    rw [qJobs, List.filter_append]
    rcases List.mem_cons.mp hq with rfl | hq'
    · have htail : (qJobs w cs).filter (fun j => decide (j.choreId = q.id)) = [] := by
        apply List.filter_eq_nil_iff.mpr
        intro j hj
        obtain ⟨c', hc', _, rfl⟩ := mem_qJobs hj
        simp only [decide_eq_true_eq, mkJob]
        intro hid
        exact hids.1 (hid ▸ List.mem_map_of_mem Chore.id hc')
      rw [htail, if_pos hfq, hocc]
      simp [mkJob]
    · have hne : ¬ (c.id = q.id) := by
        intro hid
        exact hids.1 (hid ▸ List.mem_map_of_mem Chore.id hq')
      have hhead : ∀ j ∈ (if c.freq = "quarterly"
          then List.replicate (occurrencesInWeek c w) (mkJob c) else []),
          ¬ (decide (j.choreId = q.id) = true) := by
        intro j hj
        split at hj
        · rw [List.eq_of_mem_replicate hj]
          simpa [mkJob] using hne
        · exact absurd hj (List.not_mem_nil j)
      rw [List.filter_eq_nil_iff.mpr hhead,
        qJobs_filter_eq hids.2 hq' hfq hocc]
      rfl

theorem fanout_filter_ne {I : Inputs} {j : Job} {cid : Nat} (hne : ¬ (j.choreId = cid))
    (st : EState) :
    (fanout I j st).assignments.filter (fun a => decide (a.choreId = cid)) =
      st.assignments.filter (fun a => decide (a.choreId = cid)) := by
  unfold fanout
  apply foldl_preserves
    (P := fun (s : EState) => s.assignments.filter (fun a => decide (a.choreId = cid)) =
      st.assignments.filter (fun a => decide (a.choreId = cid)))
  · intro s person _ hs
    split
    · exact hs
    · have hpush : (pushAssign s person j).assignments =
        s.assignments ++ [⟨person, j.choreId, j.choreName, j.area, j.weight⟩] := rfl
      rw [hpush, List.filter_append]
      simp [List.filter_cons, hne, hs]
  · rfl

theorem fanout_filter_eq {I : Inputs} {g : Job} :
    ∀ (Q : List String) (st : EState), Q.Nodup →
      (∀ x ∈ Q, ∀ a ∈ st.assignments, ¬ (a.person = x ∧ a.choreId = g.choreId)) →
      ((Q.foldl (fun st person =>
          if I.noDupPerWeek &&
              st.assignments.any (fun a =>
                decide (a.person = person) && decide (a.choreId = g.choreId)) then st
          else pushAssign st person g) st).assignments.filter
        (fun a => decide (a.choreId = g.choreId)))
      = st.assignments.filter (fun a => decide (a.choreId = g.choreId)) ++
        Q.map (fun p => ⟨p, g.choreId, g.choreName, g.area, g.weight⟩)
  | [], st, _, _ => by simp
  | x :: Q, st, hnd, hpre => by
    rcases List.nodup_cons.mp hnd with ⟨hx, hnd'⟩
    simp only [List.foldl_cons]
    have hany : (st.assignments.any (fun a =>
        decide (a.person = x) && decide (a.choreId = g.choreId))) = false := by
      apply List.any_eq_false.mpr
      intro a ha
      simp only [Bool.and_eq_true, decide_eq_true_eq, not_and]
      intro h1 h2
      exact hpre x (List.mem_cons_self x Q) a ha ⟨h1, h2⟩
    have hcond : (I.noDupPerWeek && st.assignments.any (fun a =>
        decide (a.person = x) && decide (a.choreId = g.choreId))) = false := by
      rw [hany, Bool.and_false]
    rw [hcond]
    simp only [Bool.false_eq_true, if_false]
    have hassign : (pushAssign st x g).assignments =
        st.assignments ++ [⟨x, g.choreId, g.choreName, g.area, g.weight⟩] := rfl
    have hpre' : ∀ y ∈ Q, ∀ a ∈ (pushAssign st x g).assignments,
        ¬ (a.person = y ∧ a.choreId = g.choreId) := by
      intro y hy a ha
      rw [hassign] at ha
      rcases List.mem_append.mp ha with hin | hnew
      · exact hpre y (List.mem_cons_of_mem x hy) a hin
      · intro hcontra
        have haeq : a = ⟨x, g.choreId, g.choreName, g.area, g.weight⟩ := by
          simpa using hnew
        rw [haeq] at hcontra
        have hxy : x = y := hcontra.1
        rw [← hxy] at hy
        exact hx hy
    rw [fanout_filter_eq Q (pushAssign st x g) hnd' hpre', hassign, List.filter_append]
    simp [List.filter_cons]

theorem group_fold_filter_none {I : Inputs} {cid : Nat} :
    ∀ (js : List Job) (st : EState), (∀ j ∈ js, ¬ (j.choreId = cid)) →
      ((js.foldl (fun st q => fanout I q st) st).assignments.filter
        (fun a => decide (a.choreId = cid)))
      = st.assignments.filter (fun a => decide (a.choreId = cid))
  | [], _, _ => rfl
  | j :: js, st, h => by
    simp only [List.foldl_cons]
    rw [group_fold_filter_none js (fanout I j st)
        (fun x hx => h x (List.mem_cons_of_mem j hx)),
      fanout_filter_ne (h j (List.mem_cons_self j js)) st]

theorem group_fold_filter {I : Inputs} {q : Chore} :
    ∀ (js : List Job) (st : EState),
      (I.people.map Person.name).Nodup →
      js.filter (fun j => decide (j.choreId = q.id)) = [mkJob q] →
      st.assignments.filter (fun a => decide (a.choreId = q.id)) = [] →
      ((js.foldl (fun st q' => fanout I q' st) st).assignments.filter
        (fun a => decide (a.choreId = q.id)))
      = (I.people.map Person.name).map (fun p => ⟨p, q.id, q.name, q.area, q.weight⟩)
  | [], _, _, hjs, _ => by simp at hjs
  | j :: js, st, hP, hjs, hst => by
    simp only [List.foldl_cons]
    rw [List.filter_cons] at hjs
    by_cases hj : j.choreId = q.id
    · rw [if_pos (by simpa using hj)] at hjs
      obtain ⟨hjq, hrest⟩ : j = mkJob q ∧
          js.filter (fun j => decide (j.choreId = q.id)) = [] := by
        simpa using hjs
      subst hjq
      have hrest' : ∀ x ∈ js, ¬ (x.choreId = q.id) := by
        intro x hx
        have hfe := List.filter_eq_nil_iff.mp hrest x hx
        simpa using hfe
      rw [group_fold_filter_none js _ hrest']
      have hpre : ∀ x ∈ (I.people.map Person.name), ∀ a ∈ st.assignments,
          ¬ (a.person = x ∧ a.choreId = (mkJob q).choreId) := by
        intro x _ a ha hc
        have hfe := List.filter_eq_nil_iff.mp hst a ha
        simp only [decide_eq_true_eq] at hfe
        exact hfe hc.2
      have hq2 : (fanout I (mkJob q) st).assignments.filter
          (fun a => decide (a.choreId = q.id)) =
          st.assignments.filter (fun a => decide (a.choreId = q.id)) ++
          (I.people.map Person.name).map
            (fun p => ⟨p, q.id, q.name, q.area, q.weight⟩) :=
        fanout_filter_eq (I := I) (g := mkJob q) (I.people.map Person.name) st hP hpre
      rw [hq2, hst, List.nil_append]
    · rw [if_neg (by simpa using hj)] at hjs
      have hst' : (fanout I j st).assignments.filter
          (fun a => decide (a.choreId = q.id)) = [] := by
        rw [fanout_filter_ne hj st, hst]
      exact group_fold_filter js (fanout I j st) hP hjs hst'

theorem stageGroup_filter {I : Inputs} {q : Chore} {w : Nat} (last : Nat → Option String)
    (hP : (I.people.map Person.name).Nodup)
    (hids : (I.chores.map Chore.id).Nodup) (hq : q ∈ I.chores)
    (hfq : q.freq = "quarterly") (hocc : occurrencesInWeek q w = 1) :
    (stageGroup I w last).assignments.filter (fun a => decide (a.choreId = q.id)) =
      (I.people.map Person.name).map (fun p => ⟨p, q.id, q.name, q.area, q.weight⟩) := by
  unfold stageGroup
  exact group_fold_filter (qJobs w I.chores) (initState last) hP
    (qJobs_filter_eq hids hq hfq hocc) rfl

theorem stageGreedy_filter {I : Inputs} {q : Chore} {w : Nat} (last : Nat → Option String)
    (hids : (I.chores.map Chore.id).Nodup) (hq : q ∈ I.chores)
    (hfq : q.freq = "quarterly") :
    (stageGreedy I w last).assignments.filter (fun a => decide (a.choreId = q.id)) =
      (stageGroup I w last).assignments.filter (fun a => decide (a.choreId = q.id)) := by
  unfold stageGreedy
  apply foldl_preserves
    (P := fun (s : EState) => s.assignments.filter (fun a => decide (a.choreId = q.id)) =
      (stageGroup I w last).assignments.filter (fun a => decide (a.choreId = q.id)))
  · intro s job hjob hs
    rcases greedyStep_cases I s job with heq | ⟨chosen, _, heq⟩
    · rw [heq]; exact hs
    · rw [heq]
      obtain ⟨c', hc', hnq, rfl⟩ := mem_iJobs (mem_sortCmp.mp hjob)
      have hne : ¬ ((mkJob c').choreId = q.id) := by
        show ¬ (c'.id = q.id)
        intro hid
        have hcq : c' = q := List.inj_on_of_nodup_map hids hc' hq hid
        exact hnq (by rw [hcq]; exact hfq)
      have hpush : (pushAssign s chosen (mkJob c')).assignments =
          s.assignments ++
            [⟨chosen, (mkJob c').choreId, (mkJob c').choreName,
              (mkJob c').area, (mkJob c').weight⟩] := rfl
      rw [hpush, List.filter_append]
      simp [List.filter_cons, hne, hs]
  · rfl

theorem canMove_choreId_ne {chores : List Chore} {q : Chore} {a : Assignment}
    (hids : (chores.map Chore.id).Nodup) (hq : q ∈ chores) (hfq : q.freq = "quarterly")
    (hcm : canMove chores a = true) : ¬ (a.choreId = q.id) := by
  intro heq
  unfold canMove at hcm
  split at hcm
  · next c hfind =>
    have hcmem := List.mem_of_find?_eq_some hfind
    have hcid : c.id = a.choreId := by simpa using List.find?_some hfind
    have hceq : c = q := List.inj_on_of_nodup_map hids hcmem hq (by rw [hcid, heq])
    rw [hceq] at hcm
    simp [hfq] at hcm
  · exact Bool.false_ne_true hcm

theorem setPersonFirst_filter_ne {t : Assignment} {needy : String} {cid : Nat}
    (hne : ¬ (t.choreId = cid)) :
    ∀ l : List Assignment,
      (setPersonFirst t needy l).filter (fun a => decide (a.choreId = cid)) =
        l.filter (fun a => decide (a.choreId = cid))
  | [] => rfl
  | a :: as => by
    simp only [setPersonFirst]
    split
    · next hat =>
      subst hat
      have h1 : ({ a with person := needy } : Assignment).choreId = a.choreId := rfl
      have hd : decide (a.choreId = cid) = false := by simpa using hne
      simp [List.filter_cons, h1, hd]
    · next hat =>
      simp only [List.filter_cons, setPersonFirst_filter_ne hne as]

theorem repairStep_filter_q {I : Inputs} {q : Chore} {st st' : EState}
    (hids : (I.chores.map Chore.id).Nodup) (hq : q ∈ I.chores)
    (hfq : q.freq = "quarterly") (h : repairStep I st = some st') :
    st'.assignments.filter (fun a => decide (a.choreId = q.id)) =
      st.assignments.filter (fun a => decide (a.choreId = q.id)) := by
  obtain ⟨needy, donor, take, _, _, _, _, _, hcm, heq⟩ := repairStep_eq_some h
  subst heq
  exact setPersonFirst_filter_ne (canMove_choreId_ne hids hq hfq hcm) st.assignments

theorem repairLoop_filter_q {I : Inputs} {q : Chore}
    (hids : (I.chores.map Chore.id).Nodup) (hq : q ∈ I.chores)
    (hfq : q.freq = "quarterly") :
    ∀ (fuel : Nat) (st : EState),
      (repairLoop I fuel st).assignments.filter (fun a => decide (a.choreId = q.id)) =
        st.assignments.filter (fun a => decide (a.choreId = q.id))
  | 0, _ => rfl
  | Nat.succ fuel, st => by
    simp only [repairLoop]
    cases h : repairStep I st with
    | none => rfl
    | some st' =>
      rw [repairLoop_filter_q hids hq hfq fuel st', repairStep_filter_q hids hq hfq h]


/-! The claims. -/

/-- C1: counterexample — with the roster, catalog, cycle length and policy
all fixed, two different wall-clock samples of the `uid` tie-break key
produce different per-week assignment lists, so the result does depend on
the wall clock. -/
theorem C1_counterexample :
    (alloc c1I).map WeekRec.assignments ≠
      (alloc { c1I with tb := tbNeg }).map WeekRec.assignments := by
  decide

/-- C1 (amended): the allocation is deterministic only given the tie-break
key: its result is a function of the roster, catalog, cycle length, policy
and the sampled `uid` key values — two calls agree whenever their tie-break
keys agree, but (per the counterexample) not across different wall-clock
samples. -/
theorem C1_deterministic_given_tiebreak
    (people : List Person) (chores : List Chore) (cycleWeeks minC maxC : Nat)
    (ar nd : Bool) (tb1 tb2 : Nat → Int) (h : ∀ s, tb1 s = tb2 s) :
    alloc ⟨people, chores, cycleWeeks, minC, maxC, ar, nd, tb1⟩ =
      alloc ⟨people, chores, cycleWeeks, minC, maxC, ar, nd, tb2⟩ := by
  have heq : tb1 = tb2 := funext h
  rw [heq]

/-- C1 witness: the determinism theorem applied at a concrete input. -/
theorem C1_witness :
    alloc c1I = alloc ⟨c1I.people, c1I.chores, 1, 0, 10, false, false, tbId⟩ :=
  C1_deterministic_given_tiebreak _ _ _ _ _ _ _ tbId tbId (fun _ => rfl)

/-- C2: counterexample — with two quarterly chores fanned out in week 0 and
`maxChores = 1`, the single person's count immediately after the greedy
stage is 2, exceeding the maximum: the group fan-out is not bounded by
`maxChores` and the greedy stage cannot undo it. -/
theorem C2_counterexample :
    (stageGreedy c2I 0 (lastMap c2I 0)).counts "Ann" = 2 ∧ c2I.maxChores = 1 := by
  constructor
  · decide
  · rfl

/-- C2 (amended): the greedy stage itself never lifts a count above the
maximum — immediately after the greedy balancer, every person's count is at
most the maximum of `maxChores` and that person's count after the quarterly
group fan-out (so in weeks whose fan-out stays within `maxChores`, no count
exceeds `maxChores` before repair). -/
theorem C2_greedy_respects_max (I : Inputs) (w : Nat) (last : Nat → Option String)
    (p : String) :
    (stageGreedy I w last).counts p ≤ max I.maxChores ((stageGroup I w last).counts p) := by
  unfold stageGreedy
  exact greedy_counts_le I _ _ p

/-- C3: counterexample — chore id 10 is the first monthly chore (rank 0) of
the source's default catalog, so the spec's rank rule makes it due in week
0; the code instead uses offset `(id − 1) mod 4 = 1` and returns 0 for
week 0. -/
theorem C3_counterexample :
    occurrencesInWeek ⟨10, "Clean windows", some "All Rooms", 5, "monthly"⟩ 0 = 0 ∧
    specMonthlyOccurrences DEFAULT_CHORES
      ⟨10, "Clean windows", some "All Rooms", 5, "monthly"⟩ 0 = 1 := by
  decide

/-- C3 (amended): for a monthly chore (id ≥ 1, as the catalog assigns) the
resolver returns 1 exactly when `weekIndex mod 4` equals `(id − 1) mod 4` —
the offset is determined by the chore's id, not by its rank among the
monthly chores. -/
theorem C3_monthly_offset_by_id (c : Chore) (w : Nat) (hf : c.freq = "monthly")
    (hid : 1 ≤ c.id) :
    occurrencesInWeek c w = if w % 4 = (c.id - 1) % 4 then 1 else 0 := by
  unfold occurrencesInWeek
  rw [hf]
  rw [if_neg (by decide : ¬ (("monthly" : String) = "weekly")),
    if_neg (by decide : ¬ (("monthly" : String) = "twice_week")),
    if_neg (by decide : ¬ (("monthly" : String) = "every_2_weeks")),
    if_pos rfl]

/-- C3 witness: the amended rule applied to the default catalog's chore 10
in week 1 (offset (10 − 1) mod 4 = 1). -/
theorem C3_witness :
    occurrencesInWeek ⟨10, "Clean windows", some "All Rooms", 5, "monthly"⟩ 1 = 1 := by
  have h := C3_monthly_offset_by_id
    ⟨10, "Clean windows", some "All Rooms", 5, "monthly"⟩ 1 rfl (by decide)
  simpa using h

/-- C4: counterexample — with maxPerWeek (1) < minPerWeek (3) the entry
point does not fail: it returns an ordinary two-week CycleResult; and with
an empty roster it returns the empty list, not a distinguishable error
outcome. -/
theorem C4_counterexample :
    c4I.maxChores < c4I.minChores ∧ (alloc c4I).length = 2 ∧ c4I.cycleWeeks = 2 ∧
    (alloc { c4I with people := [] }).length = 0 := by
  decide

/-- C4 (amended): the entry point has no error outcome: when the roster or
the catalog is empty it returns the empty CycleResult (no weeks), and it
performs no min/max validation — for non-empty inputs, including
maxPerWeek < minPerWeek, it returns an ordinary CycleResult with exactly
`cycleWeeks` week records and never throws. -/
theorem C4_no_error_outcome (I : Inputs) :
    ((I.people = [] ∨ I.chores = []) → alloc I = []) ∧
    (I.people ≠ [] → I.chores ≠ [] → (alloc I).length = I.cycleWeeks) := by
  constructor
  · intro h
    unfold alloc
    rw [if_pos h]
  · intro h1 h2
    unfold alloc
    rw [if_neg (by tauto)]
    rw [List.length_map, List.length_range]

/-- C4 witness: the guard behaviour applied at concrete inputs. -/
theorem C4_witness :
    alloc { c4I with people := [] } = [] ∧ (alloc c4I).length = c4I.cycleWeeks :=
  ⟨(C4_no_error_outcome { c4I with people := [] }).1 (Or.inl rfl),
   (C4_no_error_outcome c4I).2 (by decide) (by decide)⟩

set_option maxRecDepth 20000 in
/-- C5: counterexample — at `c5I`, week 4's greedy stage gives all five
occurrences to "Ann" (counts 5 versus 0, `minChores = 2`); the first
repair move turns the counts into (4, 1): "Ann" is still above the
minimum and "Bob" still below it, so the move decreases neither the
number of people below `minChores` nor the number above it.  The run
never reaches a `uid` tie-break (distinct weights in every week's job
sort, equal-length names in every candidate sort), so it is the program's
behaviour at every wall-clock instant; the final conjunct repeats the
observation at the opposite-ordering key `tbNeg`. -/
theorem C5_counterexample :
    ((repairStep c5I (stageGreedy c5I 4 (lastMap c5I 4))).map
      (fun st => (numBelow c5I st, numAbove c5I st))) = some (1, 1) ∧
    numBelow c5I (stageGreedy c5I 4 (lastMap c5I 4)) = 1 ∧
    numAbove c5I (stageGreedy c5I 4 (lastMap c5I 4)) = 1 ∧
    ((repairStep c5Ib (stageGreedy c5Ib 4 (lastMap c5Ib 4))).map
      (fun st => (numBelow c5Ib st, numAbove c5Ib st))) = some (1, 1) ∧
    numBelow c5Ib (stageGreedy c5Ib 4 (lastMap c5Ib 4)) = 1 ∧
    numAbove c5Ib (stageGreedy c5Ib 4 (lastMap c5Ib 4)) = 1 := by
  decide

/-- C5 (amended): every repair move strictly decreases the total deficit
`Σ_p (minChores − counts p)` (each move raises a below-minimum person by
one while its donor stays at or above the minimum), and the loop reaches
its fixed point within `deficit` rounds: any fuel between the current
deficit and the 100-round guard yields the same final state. -/
theorem C5_repair_deficit_monotone (I : Inputs) :
    (∀ st, (repairStep I st).isSome = true →
      deficit I ((repairStep I st).getD st) < deficit I st) ∧
    (∀ st f, deficit I st ≤ f → f ≤ 100 → repairLoop I 100 st = repairLoop I f st) := by
  constructor
  · intro st hs
    cases h : repairStep I st with
    | none => rw [h] at hs; simp at hs
    | some st' =>
      exact repairStep_deficit h
  · intro st f h1 h2
    exact repairLoop_fuel_eq I 100 st f (le_trans h1 h2) h1

/-- C5 witness: the deficit decrease and fuel insensitivity at a concrete
state with one person above and one below the minimum. -/
theorem C5_witness :
    deficit c5wI ((repairStep c5wI c5wSt).getD c5wSt) < deficit c5wI c5wSt ∧
    repairLoop c5wI 100 c5wSt = repairLoop c5wI (deficit c5wI c5wSt) c5wSt :=
  ⟨(C5_repair_deficit_monotone c5wI).1 c5wSt (by decide),
   (C5_repair_deficit_monotone c5wI).2 c5wSt (deficit c5wI c5wSt)
     (Nat.le_refl _) (by decide)⟩

/-- C6: after the group stage, the greedy stage and the repair pass, the
counts map and the loads map equal the aggregation of the assignment list
(count of tuples naming the person, sum of their weights), and every week
record of the allocation satisfies the same identity. -/
theorem C6_counts_loads_aggregate (I : Inputs) (w : Nat) (last : Nat → Option String) :
    (AggOk (stageGroup I w last) ∧ AggOk (stageGreedy I w last) ∧
      AggOk (stageFinal I w last)) ∧
    (∀ r ∈ alloc I, ∀ p, r.counts p = countAgg r.assignments p ∧
      r.loads p = loadAgg r.assignments p) := by
  refine ⟨⟨aggOk_stageGroup I w last, aggOk_stageGreedy I w last,
    aggOk_stageFinal I w last⟩, ?_⟩
  intro r hr p
  unfold alloc at hr
  split at hr
  · simp at hr
  · obtain ⟨w', _, rfl⟩ := List.mem_map.mp hr
    exact aggOk_stageFinal I w' (lastMap I w') p

/-- C6 witness: the aggregation identity for the first week record of a
concrete allocation. -/
theorem C6_witness :
    (weekRec c7I 0).counts "Ann" = countAgg (weekRec c7I 0).assignments "Ann" ∧
    (weekRec c7I 0).loads "Ann" = loadAgg (weekRec c7I 0).assignments "Ann" := by
  have hmem : weekRec c7I 0 ∈ alloc c7I := by
    unfold alloc
    rw [if_neg (by decide)]
    exact List.mem_map_of_mem _ (by decide : (0 : Nat) ∈ List.range c7I.cycleWeeks)
  exact (C6_counts_loads_aggregate c7I 0 (lastMap c7I 0)).2 (weekRec c7I 0) hmem "Ann"

/-- C7: for a quarterly chore due in week w (with unique catalog ids and
unique roster names), the final week state contains exactly the roster-wide
fan-out for that chore id — one tuple per person, in roster order, held by
the fan-out's assignees — the repair pass never reassigns them (the
quarterly tuples after repair equal those after the greedy stage), and each
person has exactly one tuple for that chore id. -/
theorem C7_group_fanout (I : Inputs) (q : Chore) (w : Nat) (last : Nat → Option String)
    (hP : (I.people.map Person.name).Nodup)
    (hids : (I.chores.map Chore.id).Nodup) (hq : q ∈ I.chores)
    (hfq : q.freq = "quarterly") (hocc : occurrencesInWeek q w = 1) :
    ((stageFinal I w last).assignments.filter (fun a => decide (a.choreId = q.id)) =
      (I.people.map Person.name).map (fun p => ⟨p, q.id, q.name, q.area, q.weight⟩)) ∧
    ((stageFinal I w last).assignments.filter (fun a => decide (a.choreId = q.id)) =
      (stageGreedy I w last).assignments.filter (fun a => decide (a.choreId = q.id))) ∧
    (∀ nm ∈ I.people.map Person.name,
      ((stageFinal I w last).assignments.filter
        (fun a => decide (a.person = nm ∧ a.choreId = q.id))).length = 1) := by
  have hfin : (stageFinal I w last).assignments.filter
      (fun a => decide (a.choreId = q.id)) =
      (stageGreedy I w last).assignments.filter (fun a => decide (a.choreId = q.id)) := by
    unfold stageFinal
    exact repairLoop_filter_q hids hq hfq 100 _
  have hgr := stageGreedy_filter (q := q) (w := w) last hids hq hfq
  have hgp := stageGroup_filter (q := q) (w := w) last hP hids hq hfq hocc
  have hmain := hfin.trans (hgr.trans hgp)
  refine ⟨hmain, hfin, ?_⟩
  intro nm hnm
  have hfuneq : (fun (a : Assignment) => decide (a.person = nm ∧ a.choreId = q.id)) =
      (fun a => decide (a.person = nm) && decide (a.choreId = q.id)) := by
    funext a
    simp
  rw [hfuneq, ← List.filter_filter, hmain, List.filter_map]
  rw [List.length_map]
  have hcomp : ((fun (a : Assignment) => decide (a.person = nm)) ∘
      (fun p => (⟨p, q.id, q.name, q.area, q.weight⟩ : Assignment))) =
      (fun p => decide (p = nm)) := by
    funext p
    rfl
  rw [hcomp]
  exact filter_length_nodup_mem hP hnm

/-- C7 witness: the fan-out identity for a concrete quarterly chore. -/
theorem C7_witness :
    (stageFinal c7I 0 (lastMap c7I 0)).assignments.filter
        (fun a => decide (a.choreId = 1)) =
      [⟨"Ann", 1, "Q", none, 3⟩, ⟨"Bob", 1, "Q", none, 3⟩] := by
  have h := (C7_group_fanout c7I ⟨1, "Q", none, 3, "quarterly"⟩ 0 (lastMap c7I 0)
    (by decide) (by decide) (by decide) rfl rfl).1
  simpa using h

/-- C8: the quarterly cadence resolves to 1 exactly on week indices
divisible by 12 (the block test `⌊w/4⌋ mod 3 = 0 ∧ w mod 4 = 0` is
equivalent to `w mod 12 = 0`), and any cadence value outside the five-key
enumeration resolves to 0 rather than throwing. -/
theorem C8_quarterly_and_default (c : Chore) (w : Nat) :
    (c.freq = "quarterly" → occurrencesInWeek c w = if w % 12 = 0 then 1 else 0) ∧
    (c.freq ≠ "weekly" → c.freq ≠ "twice_week" → c.freq ≠ "every_2_weeks" →
      c.freq ≠ "monthly" → c.freq ≠ "quarterly" → occurrencesInWeek c w = 0) := by
  constructor
  · intro hf
    unfold occurrencesInWeek
    rw [hf,
      if_neg (by decide : ¬ (("quarterly" : String) = "weekly")),
      if_neg (by decide : ¬ (("quarterly" : String) = "twice_week")),
      if_neg (by decide : ¬ (("quarterly" : String) = "every_2_weeks")),
      if_neg (by decide : ¬ (("quarterly" : String) = "monthly")),
      if_pos rfl]
    by_cases h : w % 12 = 0
    · rw [if_pos h, if_pos (by omega)]
    · rw [if_neg h, if_neg (by omega)]
  · intro h1 h2 h3 h4 h5
    unfold occurrencesInWeek
    rw [if_neg h1, if_neg h2, if_neg h3, if_neg h4, if_neg h5]

/-- C8 witness: week 12 of a quarterly chore and an unrecognized cadence. -/
theorem C8_witness :
    occurrencesInWeek ⟨18, "Change Filter", some "Upstairs", 3, "quarterly"⟩ 12 = 1 ∧
    occurrencesInWeek ⟨1, "x", none, 1, "daily"⟩ 7 = 0 := by
  constructor
  · have h := (C8_quarterly_and_default
      ⟨18, "Change Filter", some "Upstairs", 3, "quarterly"⟩ 12).1 rfl
    simpa using h
  · exact (C8_quarterly_and_default ⟨1, "x", none, 1, "daily"⟩ 7).2
      (by decide) (by decide) (by decide) (by decide) (by decide)

/-- C9: a repair move never pushes anyone from at-or-above the minimum to
below it (every donor has count strictly above `minChores` before the move,
so it remains at least `minChores` after), and consequently the number of
people below the minimum never increases. -/
theorem C9_repair_never_pushes_below_min (I : Inputs) (st : EState)
    (hs : (repairStep I st).isSome = true) :
    (∀ p, I.minChores ≤ st.counts p →
      I.minChores ≤ ((repairStep I st).getD st).counts p) ∧
    numBelow I ((repairStep I st).getD st) ≤ numBelow I st := by
  cases h : repairStep I st with
  | none => rw [h] at hs; simp at hs
  | some st' =>
    exact ⟨fun p hp => repairStep_min_preserved h p hp, repairStep_numBelow h⟩

/-- C9 witness: the donor "Cal" stays at the minimum after the move and the
below-count does not grow, at a concrete state. -/
theorem C9_witness :
    c9I.minChores ≤ ((repairStep c9I c9St).getD c9St).counts "Cal" ∧
    numBelow c9I ((repairStep c9I c9St).getD c9St) ≤ numBelow c9I c9St :=
  ⟨(C9_repair_never_pushes_below_min c9I c9St (by decide)).1 "Cal" (by decide),
   (C9_repair_never_pushes_below_min c9I c9St (by decide)).2⟩

/-- C10: the repair pass changes only the person field of the moved tuple
(the positional non-person payload of the list is preserved) and never
updates the last-assignee map: the map a week's final state carries — the
one threaded into the next week where `avoidRepeats` consults it — is
exactly the map the greedy stage produced. -/
theorem C10_repair_frame (I : Inputs) :
    (∀ st, (repairStep I st).isSome = true →
      ((repairStep I st).getD st).last = st.last ∧
      ((repairStep I st).getD st).assignments.map stripPerson =
        st.assignments.map stripPerson) ∧
    (∀ w last, (stageFinal I w last).last = (stageGreedy I w last).last) ∧
    (∀ w, lastMap I (w + 1) = (stageGreedy I w (lastMap I w)).last) := by
  refine ⟨?_, ?_, ?_⟩
  · intro st hs
    cases h : repairStep I st with
    | none => rw [h] at hs; simp at hs
    | some st' =>
      exact ⟨repairStep_last h, repairStep_strip h⟩
  · intro w last
    unfold stageFinal
    exact repairLoop_last I 100 _
  · intro w
    show (stageFinal I w (lastMap I w)).last = _
    unfold stageFinal
    exact repairLoop_last I 100 _

/-- C10 witness: the frame property at a concrete repair move and week. -/
theorem C10_witness :
    ((repairStep c9I c9St).getD c9St).last = c9St.last ∧
    (stageFinal c9I 0 (lastMap c9I 0)).last = (stageGreedy c9I 0 (lastMap c9I 0)).last :=
  ⟨((C10_repair_frame c9I).1 c9St (by decide)).1,
   (C10_repair_frame c9I).2.1 0 (lastMap c9I 0)⟩

end ChoreMaster
